import Mathlib

/-!
Verification of `src/brainfuck.py`.

Python strings are modelled as lists of Unicode code points (`List Nat`);
bytes objects as lists of byte values (`List Nat`, each `< 256`).  Relevant
code points: '+'=43, ','=44, '-'=45, '.'=46, '<'=60, '>'=62, '['=91, ']'=93,
'0'..'9'=48..57, 'A'..'F'=65..70, 'a'..'f'=97..102, space=32.

Fallible Python operations (`str.encode("ascii")`, `bytes.fromhex`,
`str.encode("latin1")`, raised `ValueError`s) are modelled with
`Option`/`Except`.  The interpreter loop, which need not terminate, is
modelled with explicit fuel; running out of fuel yields `none`.
-/

/-- Models `BF_COMMANDS = set("+-<>[].,")` (brainfuck.py line 6). -/
def BF_COMMANDS : List Nat := [43, 45, 60, 62, 91, 93, 46, 44]

/-- Membership test in `BF_COMMANDS`, as used by the filter on line 51. -/
def isBF (c : Nat) : Bool := BF_COMMANDS.contains c

/-- Models `text_to_brainfuck`'s loop (lines 16-27): running cell value
`curr`, per character emit the `+`/`-` delta then one `.`. -/
def text_to_brainfuck_aux : List Nat → Nat → List Nat
  | [], _ => []
  | ch :: rest, curr =>
    (if curr < ch then List.replicate (ch - curr) 43
     else if ch < curr then List.replicate (curr - ch) 45
     else []) ++ (46 :: text_to_brainfuck_aux rest ch)

/-- Models `text_to_brainfuck` (lines 9-27); `curr` starts at 0. -/
def text_to_brainfuck (text : List Nat) : List Nat :=
  text_to_brainfuck_aux text 0

/-- Lowercase hex digit of a value `n < 16`, as produced by `bytes.hex()`. -/
def hexDigitChar (n : Nat) : Nat := if n < 10 then 48 + n else 87 + n

/-- Hex spelling of a byte sequence: each byte becomes two lowercase hex
digits, high nibble first, as `bytes.hex()` does. -/
def hexBytes : List Nat → List Nat
  | [] => []
  | b :: rest => hexDigitChar (b / 16) :: hexDigitChar (b % 16) :: hexBytes rest

/-- Models `brainfuck_to_hex` (lines 30-32): `bf_code.encode("ascii").hex()`.
`encode("ascii")` fails (`none`) when a code point is ≥ 128. -/
def brainfuck_to_hex (bf : List Nat) : Option (List Nat) :=
  if bf.all (fun c => decide (c < 128)) then some (hexBytes bf) else none

/-- Value of a hex digit, per the digit table used by `bytes.fromhex`:
accepts 0-9, a-f, A-F. -/
def hexVal (c : Nat) : Option Nat :=
  if 48 ≤ c ∧ c ≤ 57 then some (c - 48)
  else if 97 ≤ c ∧ c ≤ 102 then some (c - 87)
  else if 65 ≤ c ∧ c ≤ 70 then some (c - 55)
  else none

/-- ASCII whitespace, which `bytes.fromhex` skips between digit pairs. -/
def isPySpace (c : Nat) : Bool :=
  c == 32 || c == 9 || c == 10 || c == 13 || c == 11 || c == 12

/-- Models `bytes.fromhex`: repeatedly skip ASCII whitespace, then read two
consecutive hex digits forming one byte; any other shape is a `ValueError`
(`none`). -/
def fromhex : List Nat → Option (List Nat)
  | [] => some []
  | c :: rest =>
    if isPySpace c then fromhex rest
    else
      match hexVal c with
      | none => none
      | some hi =>
        match rest with
        | [] => none
        | d :: rest2 =>
          match hexVal d with
          | none => none
          | some lo =>
            match fromhex rest2 with
            | none => none
            | some bs => some ((16 * hi + lo) :: bs)

/-- Models `hex_to_brainfuck` (lines 35-37): `bytes.fromhex(hex_str)` then
`.decode("ascii")`, which fails on any byte ≥ 128. -/
def hex_to_brainfuck (h : List Nat) : Option (List Nat) :=
  match fromhex h with
  | none => none
  | some bs => if bs.all (fun c => decide (c < 128)) then some bs else none

/-- Errors raised by `run_brainfuck`: the two bracket `ValueError`s of lines
57 and 62, and the `UnicodeEncodeError` of `inp.encode("latin1")` (line 68). -/
inductive BFError where
  | unmatchedClose (pos : Nat)
  | unmatchedOpen (pos : Nat)
  | inputEncodeError
deriving Repr, DecidableEq

/-- Models the bracket scan of lines 49-62: walk the filtered instructions
with index `i`, a stack of pending `[` positions (head = most recent, i.e.
Python's `stack[-1]`), accumulating the bidirectional `jumps` entries. -/
def scanAux : List Nat → Nat → List Nat → List (Nat × Nat) →
    Except BFError (List (Nat × Nat))
  | [], _, stack, jumps =>
    match stack with
    | [] => .ok jumps
    | top :: _ => .error (.unmatchedOpen top)
  | c :: rest, i, stack, jumps =>
    if c = 91 then scanAux rest (i + 1) (i :: stack) jumps
    else if c = 93 then
      match stack with
      | [] => .error (.unmatchedClose i)
      | j :: stack2 => scanAux rest (i + 1) stack2 ((i, j) :: (j, i) :: jumps)
    else scanAux rest (i + 1) stack jumps

/-- Bracket resolution over a filtered instruction list. -/
def scanBrackets (instrs : List Nat) : Except BFError (List (Nat × Nat)) :=
  scanAux instrs 0 [] []

/-- Reference definition for the spec's "pending unmatched open brackets":
the stack of `[`-positions still unmatched when the scan ends, head = most
recently opened (`none` when the scan instead hits an unmatched `]` and so
never reaches the unmatched-open check).  Used to state which position the
bracket error reports. -/
def pendingOpens : List Nat → Nat → List Nat → Option (List Nat)
  | [], _, stack => some stack
  | c :: rest, i, stack =>
    if c = 91 then pendingOpens rest (i + 1) (i :: stack)
    else if c = 93 then
      match stack with
      | [] => none
      | _ :: stack2 => pendingOpens rest (i + 1) stack2
    else pendingOpens rest (i + 1) stack

/-- Models `inp.encode("latin1")` (line 68): identity on code points ≤ 255,
`UnicodeEncodeError` (`none`) otherwise. -/
def encodeLatin1 (inp : List Nat) : Option (List Nat) :=
  if inp.all (fun c => decide (c < 256)) then some inp else none

/-- The pc-independent part of the interpreter state: tape, pointer, pending
input bytes, and output produced so far. -/
structure SimpleSt where
  tape : List Nat
  ptr : Nat
  inBuf : List Nat
  out : List Nat
deriving Repr, DecidableEq

/-- Full interpreter state of the loop of lines 64-96. -/
structure BFState where
  tape : List Nat
  ptr : Nat
  pc : Nat
  inBuf : List Nat
  out : List Nat
deriving Repr, DecidableEq

/-- Effect of one non-bracket instruction on tape/pointer/input/output,
mirroring lines 72-89 of the Python loop case by case; any character that is
none of the six commands leaves the state unchanged (no `elif` matches). -/
def simpleStep (c : Nat) (st : SimpleSt) : SimpleSt :=
  if c = 62 then
    { st with ptr := st.ptr + 1,
              tape := if st.ptr + 1 = st.tape.length then st.tape ++ [0] else st.tape }
  else if c = 60 then
    if st.ptr = 0 then { st with tape := 0 :: st.tape }
    else { st with ptr := st.ptr - 1 }
  else if c = 43 then
    { st with tape := st.tape.set st.ptr ((st.tape.getD st.ptr 0 + 1) % 256) }
  else if c = 45 then
    { st with tape := st.tape.set st.ptr ((st.tape.getD st.ptr 0 + 255) % 256) }
  else if c = 46 then
    { st with out := st.out ++ [st.tape.getD st.ptr 0] }
  else if c = 44 then
    match st.inBuf with
    | [] => { st with tape := st.tape.set st.ptr 0 }
    | b :: rest => { st with tape := st.tape.set st.ptr b, inBuf := rest }
  else st

/-- Forgets the program counter. -/
def toSimple (s : BFState) : SimpleSt := ⟨s.tape, s.ptr, s.inBuf, s.out⟩

/-- Rebuilds a full state from a pc-independent one and a program counter. -/
def withPC (t : SimpleSt) (pc : Nat) : BFState := ⟨t.tape, t.ptr, pc, t.inBuf, t.out⟩

/-- One iteration of the `while pc < len(filtered)` loop body (lines 70-96):
brackets consult the jump table (`pc = jumps[pc]`) and then, like every other
instruction, `pc += 1`.  Past-the-end pc leaves the state unchanged. -/
def bfStep (filt : List Nat) (jumps : List (Nat × Nat)) (s : BFState) : BFState :=
  match filt[s.pc]? with
  | none => s
  | some c =>
    if c = 91 then
      if s.tape.getD s.ptr 0 = 0 then
        { s with pc := (List.lookup s.pc jumps).getD s.pc + 1 }
      else { s with pc := s.pc + 1 }
    else if c = 93 then
      if s.tape.getD s.ptr 0 ≠ 0 then
        { s with pc := (List.lookup s.pc jumps).getD s.pc + 1 }
      else { s with pc := s.pc + 1 }
    else withPC (simpleStep c (toSimple s)) (s.pc + 1)

/-- Fuelled execution of the loop: `none` means the fuel ran out with the
program counter still in bounds (the Python loop would keep running). -/
def bfRun (filt : List Nat) (jumps : List (Nat × Nat)) : Nat → BFState → Option BFState
  | 0, s => if s.pc < filt.length then none else some s
  | fuel + 1, s =>
    if s.pc < filt.length then bfRun filt jumps fuel (bfStep filt jumps s) else some s

/-- Iterated stepping, used to speak about every reachable state. -/
def bfIter (filt : List Nat) (jumps : List (Nat × Nat)) : Nat → BFState → BFState
  | 0, s => s
  | n + 1, s => bfIter filt jumps n (bfStep filt jumps s)

/-- Initial state of lines 64-68: `tape = [0]`, `ptr = 0`, `pc = 0`, empty
output, input buffer from `inp.encode("latin1")`. -/
def initState (buf : List Nat) : BFState := ⟨[0], 0, 0, buf, []⟩

/-- Straight-line execution of a bracket-free instruction sequence: fold the
per-instruction effect over the list.  Used to reason about bracket-free
runs of the loop. -/
def simpleRun : List Nat → SimpleSt → SimpleSt
  | [], st => st
  | c :: rest, st => simpleRun rest (simpleStep c st)

/-- Models `run_brainfuck` (lines 40-98): filter to the eight commands,
resolve brackets (may raise), latin1-encode the input (may raise), then run
the loop; `.ok none` means the given fuel did not suffice. -/
def run_brainfuck (fuel : Nat) (code : List Nat) (inp : List Nat) :
    Except BFError (Option (List Nat)) :=
  match scanBrackets (code.filter isBF) with
  | .error e => .error e
  | .ok jumps =>
    match encodeLatin1 inp with
    | none => .error .inputEncodeError
    | some buf =>
      .ok ((bfRun (code.filter isBF) jumps fuel (initState buf)).map BFState.out)

/-- Models `encode_to_hex` (lines 101-104). -/
def encode_to_hex (text : List Nat) : Option (List Nat) :=
  brainfuck_to_hex (text_to_brainfuck text)

/-- Models `decode_from_hex` (lines 107-110); `none` when hex decoding
raises, otherwise the (fuelled) run of the decoded program on empty input. -/
def decode_from_hex (fuel : Nat) (h : List Nat) :
    Option (Except BFError (Option (List Nat))) :=
  (hex_to_brainfuck h).map (fun bf => run_brainfuck fuel bf [])

/-- Python `str.lower` restricted to ASCII, enough for hex digits. -/
def lowerAscii (c : Nat) : Nat := if 65 ≤ c ∧ c ≤ 90 then c + 32 else c

/-- Decidable test that a hex digit is one of 0-9, a-f, A-F. -/
def isHexDigit (c : Nat) : Bool := (hexVal c).isSome

/-- Every pair of hex digits (taken two at a time) has high nibble < 8,
i.e. denotes a byte value 0-127. -/
def hexPairsAscii : List Nat → Bool
  | a :: _ :: rest => decide ((hexVal a).getD 0 < 8) && hexPairsAscii rest
  | _ => true

/-! ### Generic helpers -/

/-- Strong induction on the length of a list of naturals. -/
theorem list_strong_ind (P : List Nat → Prop)
    (h : ∀ l, (∀ l2 : List Nat, l2.length < l.length → P l2) → P l) :
    ∀ l, P l := by
  have key : ∀ n (l : List Nat), l.length ≤ n → P l := by
    intro n
    induction n with
    | zero => intro l hl; apply h; intro l2 h2; omega
    | succ n ih => intro l hl; apply h; intro l2 h2; apply ih; omega
  intro l
  exact key l.length l (Nat.le_refl _)

/-- A member of `l.set i a` is a member of `l` or is `a` itself. -/
theorem mem_set_cases : ∀ (l : List Nat) (i a v : Nat), v ∈ l.set i a → v ∈ l ∨ v = a := by
  intro l
  induction l with
  | nil => intro i a v hv; cases hv
  | cons x t ih =>
    intro i a v hv
    cases i with
    | zero =>
      rcases List.mem_cons.mp hv with h | h
      · right; exact h
      · left; exact List.mem_cons_of_mem _ h
    | succ j =>
      rcases List.mem_cons.mp hv with h | h
      · left; rw [h]; exact List.mem_cons_self _ _
      · rcases ih j a v h with h2 | h2
        · left; exact List.mem_cons_of_mem _ h2
        · right; exact h2

/-- The element just after a prefix, through `getElem?`. -/
theorem getElem_append_len (pre : List Nat) (c : Nat) (rest : List Nat) :
    (pre ++ c :: rest)[pre.length]? = some c := by
  induction pre with
  | nil => simp
  | cons a t ih => simpa using ih

/-! ### Hex digit facts -/

/-- Hex digit values are below 16. -/
theorem hexVal_lt {c v : Nat} (h : hexVal c = some v) : v < 16 := by
  unfold hexVal at h
  split_ifs at h with h1 h2 h3 <;> simp_all <;> omega

/-- Hex digits have code points at least 48. -/
theorem hexVal_ge {c v : Nat} (h : hexVal c = some v) : 48 ≤ c := by
  unfold hexVal at h
  split_ifs at h with h1 h2 h3 <;> simp_all <;> omega

/-- A hex digit is not whitespace. -/
theorem hexVal_not_space {c v : Nat} (h : hexVal c = some v) : isPySpace c = false := by
  have h48 := hexVal_ge h
  unfold isPySpace
  simp only [Bool.or_eq_false_iff, beq_eq_false_iff_ne, ne_eq]
  omega

/-- Re-spelling the value of a hex digit lowercases it. -/
theorem hexVal_lower {c v : Nat} (h : hexVal c = some v) : hexDigitChar v = lowerAscii c := by
  unfold hexVal at h
  unfold hexDigitChar lowerAscii
  split_ifs at h with h1 h2 h3 <;> simp_all <;> split_ifs <;> omega

/-- `hexDigitChar` produces genuine lowercase hex digits: `hexVal` inverts
it and it is never whitespace. -/
theorem hexDigitChar_inv : ∀ n < 16,
    hexVal (hexDigitChar n) = some n ∧ isPySpace (hexDigitChar n) = false := by
  decide

/-- Parsing the hex spelling of an ASCII byte sequence recovers it. -/
theorem fromhex_hexBytes : ∀ (p : List Nat), (∀ b ∈ p, b < 128) →
    fromhex (hexBytes p) = some p := by
  intro p
  induction p with
  | nil => intro _; rfl
  | cons b rest ih =>
    intro hb
    have hb0 : b < 128 := hb b (List.mem_cons_self b rest)
    have e1 := hexDigitChar_inv (b / 16) (by omega)
    have e2 := hexDigitChar_inv (b % 16) (Nat.mod_lt _ (by omega))
    rw [hexBytes, fromhex, e1.2, e1.1]
    simp only [Bool.false_eq_true, if_false]
    rw [e2.1, ih (fun x hx => hb x (List.mem_cons_of_mem _ hx))]
    simp [Nat.div_add_mod]

/-- A character that is neither a hex digit nor whitespace makes
`bytes.fromhex` fail wherever it occurs. -/
theorem fromhex_badchar : ∀ (h : List Nat),
    (∃ c ∈ h, hexVal c = none ∧ isPySpace c = false) → fromhex h = none := by
  apply list_strong_ind
  intro l SIH hex
  obtain ⟨c, hmem, hval, hsp⟩ := hex
  cases l with
  | nil => cases hmem
  | cons a rest =>
    rw [fromhex]
    by_cases hsa : isPySpace a = true
    · rw [if_pos hsa]
      have hcr : c ∈ rest := by
        rcases List.mem_cons.mp hmem with h1 | h1
        · subst h1; rw [hsp] at hsa; cases hsa
        · exact h1
      exact SIH rest (by simp) ⟨c, hcr, hval, hsp⟩
    · rw [if_neg hsa]
      cases hva : hexVal a with
      | none => rfl
      | some hi =>
        cases rest with
        | nil => rfl
        | cons d rest2 =>
          cases hvd : hexVal d with
          | none => simp [hvd]
          | some lo =>
            have hc2 : c ∈ rest2 := by
              rcases List.mem_cons.mp hmem with h1 | h1
              · subst h1; rw [hva] at hval; cases hval
              · rcases List.mem_cons.mp h1 with h2 | h2
                · subst h2; rw [hvd] at hval; cases hval
                · exact h2
            simp [hvd,
              SIH rest2 (by simp only [List.length_cons]; omega) ⟨c, hc2, hval, hsp⟩]

/-- An odd number of hex digits (and nothing else) makes `bytes.fromhex`
fail. -/
theorem fromhex_oddhex : ∀ (h : List Nat),
    (∀ c ∈ h, (hexVal c).isSome = true) → h.length % 2 = 1 → fromhex h = none := by
  apply list_strong_ind
  intro l SIH hall hodd
  cases l with
  | nil => simp at hodd
  | cons a rest =>
    obtain ⟨va, hva⟩ := Option.isSome_iff_exists.mp (hall a (List.mem_cons_self a rest))
    rw [fromhex, if_neg (by simp [hexVal_not_space hva]), hva]
    cases rest with
    | nil => rfl
    | cons d rest2 =>
      obtain ⟨vd, hvd⟩ := Option.isSome_iff_exists.mp
        (hall d (List.mem_cons_of_mem _ (List.mem_cons_self d rest2)))
      have hodd2 : rest2.length % 2 = 1 := by
        simp only [List.length_cons] at hodd; omega
      simp [hvd, SIH rest2 (by simp only [List.length_cons]; omega)
        (fun c hc => hall c (List.mem_cons_of_mem _ (List.mem_cons_of_mem _ hc))) hodd2]

/-- An even-length string of hex digits parses to the byte sequence whose
hex spelling is the lowercased input; bytes are below 128 when every pair's
high nibble is below 8. -/
theorem fromhex_pairs : ∀ (h : List Nat),
    (∀ c ∈ h, (hexVal c).isSome = true) → h.length % 2 = 0 →
    ∃ bs, fromhex h = some bs ∧ hexBytes bs = h.map lowerAscii ∧
      (hexPairsAscii h = true → ∀ b ∈ bs, b < 128) := by
  apply list_strong_ind
  intro l SIH hall heven
  cases l with
  | nil => exact ⟨[], rfl, rfl, fun _ b hb => ((List.not_mem_nil b) hb).elim⟩
  | cons a rest =>
    cases rest with
    | nil => simp at heven
    | cons d rest2 =>
      obtain ⟨va, hva⟩ := Option.isSome_iff_exists.mp (hall a (by simp))
      obtain ⟨vd, hvd⟩ := Option.isSome_iff_exists.mp (hall d (by simp))
      have heven2 : rest2.length % 2 = 0 := by
        simp only [List.length_cons] at heven; omega
      obtain ⟨bs2, hbs2, hhex2, hascii2⟩ := SIH rest2 (by simp only [List.length_cons]; omega)
        (fun c hc => hall c (by simp [hc])) heven2
      have h16 : vd < 16 := hexVal_lt hvd
      refine ⟨(16 * va + vd) :: bs2, ?_, ?_, ?_⟩
      · rw [fromhex, if_neg (by simp [hexVal_not_space hva])]
        simp [hva, hvd, hbs2]
      · rw [hexBytes]
        have hdiv : (16 * va + vd) / 16 = va := by omega
        have hmod : (16 * va + vd) % 16 = vd := by omega
        rw [hdiv, hmod, hexVal_lower hva, hexVal_lower hvd, hhex2]
        simp
      · intro hpa b hb
        simp only [hexPairsAscii, Bool.and_eq_true, decide_eq_true_eq, hva,
          Option.getD_some] at hpa
        obtain ⟨hlt8, hrest⟩ := hpa
        rcases List.mem_cons.mp hb with h1 | h1
        · omega
        · exact hascii2 hrest b h1

/-! ### Interpreter execution lemmas -/

/-- Forgetting the pc after installing one recovers the simple state. -/
theorem toSimple_withPC (t : SimpleSt) (n : Nat) : toSimple (withPC t n) = t := rfl

/-- Once the program counter is past the end, `bfRun` stops immediately. -/
theorem bfRun_done (filt : List Nat) (jumps : List (Nat × Nat)) (k : Nat) (s : BFState)
    (h : ¬ s.pc < filt.length) : bfRun filt jumps k s = some s := by
  cases k <;> simp [bfRun, h]

/-- On a non-bracket instruction the loop body is the simple effect plus a
pc increment. -/
theorem bfStep_nonbracket (filt : List Nat) (jumps : List (Nat × Nat)) (s : BFState)
    (c : Nat) (hc : filt[s.pc]? = some c) (h91 : c ≠ 91) (h93 : c ≠ 93) :
    bfStep filt jumps s = withPC (simpleStep c (toSimple s)) (s.pc + 1) := by
  rw [bfStep, hc]
  simp [h91, h93]

/-- Straight-line execution distributes over append. -/
theorem simpleRun_append : ∀ (a b : List Nat) (st : SimpleSt),
    simpleRun (a ++ b) st = simpleRun b (simpleRun a st) := by
  intro a
  induction a with
  | nil => intro b st; rfl
  | cons c t ih => intro b st; simp only [List.cons_append, simpleRun]; exact ih b _

/-- Executing a bracket-free block sitting after a prefix advances the pc
over the block and applies the straight-line semantics to the state. -/
theorem bfRun_straight : ∀ (rest pre : List Nat) (jumps : List (Nat × Nat)) (k : Nat)
    (s : BFState), s.pc = pre.length → (∀ c ∈ rest, c ≠ 91 ∧ c ≠ 93) →
    bfRun (pre ++ rest) jumps (rest.length + k) s
      = bfRun (pre ++ rest) jumps k
          (withPC (simpleRun rest (toSimple s)) (pre.length + rest.length)) := by
  intro rest
  induction rest with
  | nil =>
    intro pre jumps k s hpc _
    cases s with
    | mk t p pc i o =>
      simp only [List.append_nil, List.length_nil, Nat.zero_add, Nat.add_zero, simpleRun,
        withPC, toSimple] at hpc ⊢
      rw [hpc]
  | cons c rest' ih =>
    intro pre jumps k s hpc hnb
    have hlt : s.pc < (pre ++ c :: rest').length := by
      rw [hpc]; simp [List.length_append]
    have hfuel : (c :: rest').length + k = (rest'.length + k) + 1 := by
      simp only [List.length_cons]; omega
    rw [hfuel, bfRun, if_pos hlt]
    have hget : (pre ++ c :: rest')[s.pc]? = some c := by
      rw [hpc]; exact getElem_append_len pre c rest'
    have hc := hnb c (List.mem_cons_self c rest')
    rw [bfStep_nonbracket _ jumps s c hget hc.1 hc.2]
    have hpc' : (withPC (simpleStep c (toSimple s)) (s.pc + 1)).pc = (pre ++ [c]).length := by
      simp [withPC, List.length_append, hpc]
    have step := ih (pre ++ [c]) jumps k (withPC (simpleStep c (toSimple s)) (s.pc + 1)) hpc'
      (fun x hx => hnb x (List.mem_cons_of_mem _ hx))
    rw [List.append_assoc pre [c] rest'] at step
    simp only [List.singleton_append] at step
    rw [step, toSimple_withPC]
    have hN : (pre ++ [c]).length + rest'.length = pre.length + (c :: rest').length := by
      simp only [List.length_append, List.length_cons, List.length_nil]
      omega
    rw [hN]
    rfl

/-! ### Bracket scan lemmas -/

/-- A bracket-free instruction list passes the scan with an empty jump
table. -/
theorem scanAux_no_brackets : ∀ (l : List Nat) (i : Nat),
    (∀ c ∈ l, c ≠ 91 ∧ c ≠ 93) → scanAux l i [] [] = .ok [] := by
  intro l
  induction l with
  | nil => intro i _; rfl
  | cons c rest ih =>
    intro i hl
    have hc := hl c (List.mem_cons_self c rest)
    simp only [scanAux, if_neg hc.1, if_neg hc.2]
    exact ih (i + 1) (fun x hx => hl x (List.mem_cons_of_mem _ hx))

/-- Scanning a run of `m ≥ 1` open brackets reports the last one pushed. -/
theorem scanAux_replicate_open : ∀ (m : Nat) (i : Nat) (stack : List Nat)
    (jumps : List (Nat × Nat)), 1 ≤ m →
    scanAux (List.replicate m 91) i stack jumps = .error (.unmatchedOpen (i + m - 1)) := by
  intro m
  induction m with
  | zero => intro i stack jumps h; omega
  | succ m ih =>
    intro i stack jumps _
    rw [List.replicate_succ]
    simp only [scanAux, if_true]
    cases m with
    | zero =>
      rw [List.replicate_zero]
      simp [scanAux]
    | succ m2 =>
      rw [ih (i + 1) (i :: stack) jumps (by omega)]
      congr 2
      omega

/-- When the pending-opens stack ends nonempty, the scan errors with its
head, whatever the jump table accumulated so far. -/
theorem scanAux_pendingOpens : ∀ (l : List Nat) (i : Nat) (stack : List Nat)
    (jumps : List (Nat × Nat)) (p : Nat) (rest : List Nat),
    pendingOpens l i stack = some (p :: rest) →
    scanAux l i stack jumps = .error (.unmatchedOpen p) := by
  intro l
  induction l with
  | nil =>
    intro i stack jumps p rest h
    simp only [pendingOpens] at h
    injection h with h2
    subst h2
    rfl
  | cons c tl ih =>
    intro i stack jumps p rest h
    simp only [pendingOpens] at h
    simp only [scanAux]
    by_cases h91 : c = 91
    · rw [if_pos h91] at h ⊢
      exact ih (i + 1) (i :: stack) jumps p rest h
    · rw [if_neg h91] at h ⊢
      by_cases h93 : c = 93
      · rw [if_pos h93] at h ⊢
        cases stack with
        | nil => simp at h
        | cons j st2 => exact ih (i + 1) st2 _ p rest h
      · rw [if_neg h93] at h ⊢
        exact ih (i + 1) stack jumps p rest h

/-- The pending-opens stack holds strictly decreasing positions of `[`
instructions of the scanned sequence. -/
theorem pendingOpens_props : ∀ (l : List Nat) (i : Nat) (stack st' filt : List Nat),
    pendingOpens l i stack = some st' →
    (∀ k, l[k]? = filt[i + k]?) →
    (∀ q ∈ stack, q < i) →
    (∀ q ∈ stack, filt[q]? = some 91) →
    List.Pairwise (fun a b => b < a) stack →
    (∀ q ∈ st', filt[q]? = some 91) ∧ List.Pairwise (fun a b => b < a) st' := by
  intro l
  induction l with
  | nil =>
    intro i stack st' filt h _ _ hopen hpair
    simp only [pendingOpens] at h
    injection h with h2
    subst h2
    exact ⟨hopen, hpair⟩
  | cons c tl ih =>
    intro i stack st' filt h hidx hlt hopen hpair
    have hc : filt[i]? = some c := by
      have h0 := hidx 0
      simpa using h0.symm
    simp only [pendingOpens] at h
    have hidx' : ∀ k, tl[k]? = filt[i + 1 + k]? := by
      intro k
      have hk := hidx (k + 1)
      simp only [List.getElem?_cons_succ] at hk
      rw [hk]
      congr 1
      omega
    by_cases h91 : c = 91
    · rw [if_pos h91] at h
      refine ih (i + 1) (i :: stack) st' filt h hidx' ?_ ?_ ?_
      · intro q hq
        rcases List.mem_cons.mp hq with h1 | h1
        · omega
        · have := hlt q h1; omega
      · intro q hq
        rcases List.mem_cons.mp hq with h1 | h1
        · subst h1; rw [hc, h91]
        · exact hopen q h1
      · rw [List.pairwise_cons]
        exact ⟨fun b hb => hlt b hb, hpair⟩
    · rw [if_neg h91] at h
      by_cases h93 : c = 93
      · rw [if_pos h93] at h
        cases stack with
        | nil => simp at h
        | cons j st2 =>
          refine ih (i + 1) st2 st' filt h hidx' ?_ ?_ ?_
          · intro q hq; have := hlt q (List.mem_cons_of_mem _ hq); omega
          · intro q hq; exact hopen q (List.mem_cons_of_mem _ hq)
          · exact (List.pairwise_cons.mp hpair).2
      · rw [if_neg h93] at h
        refine ih (i + 1) stack st' filt h hidx' ?_ hopen hpair
        intro q hq
        have := hlt q hq
        omega

/-! ### Generator lemmas -/

/-- Generated programs consist only of `+`, `-` and `.`. -/
theorem aux_chars : ∀ (T : List Nat) (curr c : Nat), c ∈ text_to_brainfuck_aux T curr →
    c = 43 ∨ c = 45 ∨ c = 46 := by
  intro T
  induction T with
  | nil => intro curr c hc; cases hc
  | cons ch rest ih =>
    intro curr c hc
    rw [text_to_brainfuck_aux] at hc
    rcases List.mem_append.mp hc with h1 | h1
    · split_ifs at h1
      · exact Or.inl (List.mem_replicate.mp h1).2
      · exact Or.inr (Or.inl (List.mem_replicate.mp h1).2)
      · cases h1
    · rcases List.mem_cons.mp h1 with h2 | h2
      · exact Or.inr (Or.inr h2)
      · exact ih ch c h2

/-- Generated programs survive the command filter unchanged. -/
theorem text_filter (T : List Nat) :
    (text_to_brainfuck T).filter isBF = text_to_brainfuck T := by
  apply List.filter_eq_self.mpr
  intro c hc
  rcases aux_chars T 0 c hc with h | h | h <;> rw [h] <;> rfl

/-- Generated programs contain no brackets. -/
theorem text_no_brackets (T : List Nat) :
    ∀ c ∈ text_to_brainfuck T, c ≠ 91 ∧ c ≠ 93 := by
  intro c hc
  rcases aux_chars T 0 c hc with h | h | h <;> rw [h] <;> exact ⟨by omega, by omega⟩

/-! ### Unfolding run_brainfuck through its phases -/

/-- A bracket error surfaces unchanged, for any fuel and any input. -/
theorem run_brainfuck_scan_error (fuel : Nat) (code inp : List Nat) (e : BFError)
    (h : scanBrackets (code.filter isBF) = .error e) :
    run_brainfuck fuel code inp = .error e := by
  rw [run_brainfuck, h]

/-- With valid brackets but unencodable input, run fails with the input
encoding error. -/
theorem run_brainfuck_enc_error (fuel : Nat) (code inp : List Nat)
    (jumps : List (Nat × Nat)) (hscan : scanBrackets (code.filter isBF) = .ok jumps)
    (henc : encodeLatin1 inp = none) :
    run_brainfuck fuel code inp = .error .inputEncodeError := by
  rw [run_brainfuck, hscan, henc]

/-- With valid brackets and encodable input, run executes the loop. -/
theorem run_brainfuck_ok (fuel : Nat) (code inp : List Nat) (jumps : List (Nat × Nat))
    (hscan : scanBrackets (code.filter isBF) = .ok jumps)
    (buf : List Nat) (henc : encodeLatin1 inp = some buf) :
    run_brainfuck fuel code inp
      = .ok ((bfRun (code.filter isBF) jumps fuel (initState buf)).map BFState.out) := by
  rw [run_brainfuck, hscan, henc]

/-- Iterated `+` on a single-cell tape adds modulo 256. -/
theorem simpleRun_plus : ∀ (n v : Nat), v < 256 → ∀ (inb out : List Nat),
    simpleRun (List.replicate n 43) ⟨[v], 0, inb, out⟩ = ⟨[(v + n) % 256], 0, inb, out⟩ := by
  intro n
  induction n with
  | zero => intro v hv inb out; simp [simpleRun, Nat.mod_eq_of_lt hv]
  | succ n ih =>
    intro v hv inb out
    rw [List.replicate_succ]
    simp only [simpleRun]
    have hstep : simpleStep 43 (⟨[v], 0, inb, out⟩ : SimpleSt)
        = ⟨[(v + 1) % 256], 0, inb, out⟩ := rfl
    rw [hstep, ih ((v + 1) % 256) (Nat.mod_lt _ (by omega)) inb out]
    have harith : ((v + 1) % 256 + n) % 256 = (v + (n + 1)) % 256 := by
      rw [Nat.mod_add_mod]
      congr 1
      omega
    rw [harith]

/-- Iterated `-` on a single-cell tape subtracts modulo 256 (adding 255 per
step, the Nat form of `(x - 1) & 0xFF`). -/
theorem simpleRun_minus : ∀ (n v : Nat), v < 256 → ∀ (inb out : List Nat),
    simpleRun (List.replicate n 45) ⟨[v], 0, inb, out⟩ = ⟨[(v + 255 * n) % 256], 0, inb, out⟩ := by
  intro n
  induction n with
  | zero => intro v hv inb out; simp [simpleRun, Nat.mod_eq_of_lt hv]
  | succ n ih =>
    intro v hv inb out
    rw [List.replicate_succ]
    simp only [simpleRun]
    have hstep : simpleStep 45 (⟨[v], 0, inb, out⟩ : SimpleSt)
        = ⟨[(v + 255) % 256], 0, inb, out⟩ := rfl
    rw [hstep, ih ((v + 255) % 256) (Nat.mod_lt _ (by omega)) inb out]
    have harith : ((v + 255) % 256 + 255 * n) % 256 = (v + 255 * (n + 1)) % 256 := by
      rw [Nat.mod_add_mod]
      congr 1
      omega
    rw [harith]

/-- Straight-line execution of a generated block on the single starting cell
holding the running value prints exactly the text. -/
theorem simpleRun_gen : ∀ (T : List Nat), (∀ c ∈ T, c < 256) →
    ∀ (curr : Nat), curr < 256 → ∀ (inb out : List Nat),
    ∃ v, simpleRun (text_to_brainfuck_aux T curr) ⟨[curr], 0, inb, out⟩
        = ⟨[v], 0, inb, out ++ T⟩ ∧ v < 256 := by
  intro T
  induction T with
  | nil =>
    intro _ curr hcurr inb out
    exact ⟨curr, by simp [text_to_brainfuck_aux, simpleRun], hcurr⟩
  | cons ch rest ih =>
    intro hT curr hcurr inb out
    have hch : ch < 256 := hT ch (List.mem_cons_self ch rest)
    simp only [text_to_brainfuck_aux]
    rw [simpleRun_append]
    have hcell : simpleRun (if curr < ch then List.replicate (ch - curr) 43
        else if ch < curr then List.replicate (curr - ch) 45 else [])
        ⟨[curr], 0, inb, out⟩ = ⟨[ch], 0, inb, out⟩ := by
      split_ifs with h1 h2
      · rw [simpleRun_plus _ curr hcurr inb out]
        have : (curr + (ch - curr)) % 256 = ch := by omega
        rw [this]
      · rw [simpleRun_minus _ curr hcurr inb out]
        have : (curr + 255 * (curr - ch)) % 256 = ch := by omega
        rw [this]
      · have : curr = ch := by omega
        rw [this]
        rfl
    rw [hcell]
    simp only [simpleRun]
    have hdot : simpleStep 46 (⟨[ch], 0, inb, out⟩ : SimpleSt)
        = ⟨[ch], 0, inb, out ++ [ch]⟩ := rfl
    rw [hdot]
    obtain ⟨v, hv, hvlt⟩ := ih (fun c hc => hT c (List.mem_cons_of_mem _ hc)) ch hch inb
      (out ++ [ch])
    exact ⟨v, by rw [hv]; simp, hvlt⟩

/-- Running a generated program with empty input and fuel equal to the
program length prints the source text. -/
theorem run_text_to_brainfuck (T : List Nat) (hT : ∀ c ∈ T, c < 256) :
    run_brainfuck (text_to_brainfuck T).length (text_to_brainfuck T) [] = .ok (some T) := by
  have hscan : scanBrackets ((text_to_brainfuck T).filter isBF) = .ok [] := by
    rw [text_filter]
    exact scanAux_no_brackets _ 0 (text_no_brackets T)
  rw [run_brainfuck_ok _ _ [] [] hscan [] rfl, text_filter]
  have hrun := bfRun_straight (text_to_brainfuck T) [] [] 0 (initState []) rfl
    (text_no_brackets T)
  simp only [List.nil_append, List.length_nil, Nat.add_zero, Nat.zero_add] at hrun
  rw [hrun, bfRun_done _ _ _ _ (by simp [withPC])]
  obtain ⟨v, hv, _⟩ := simpleRun_gen T hT 0 (by omega) [] []
  have hfold : (withPC (simpleRun (text_to_brainfuck T) (toSimple (initState [])))
      (text_to_brainfuck T).length).out = T := by
    show (simpleRun (text_to_brainfuck_aux T 0) ⟨[0], 0, [], []⟩).out = T
    rw [hv]
    simp
  simp only [Option.map_some']
  rw [hfold]

/-! ### Per-instruction step equations and invariants -/

/-- Step equation for `>`. -/
theorem simpleStep_62 (t : SimpleSt) : simpleStep 62 t =
    { t with ptr := t.ptr + 1,
             tape := if t.ptr + 1 = t.tape.length then t.tape ++ [0] else t.tape } := rfl

/-- Step equation for `<`. -/
theorem simpleStep_60 (t : SimpleSt) : simpleStep 60 t =
    if t.ptr = 0 then { t with tape := 0 :: t.tape } else { t with ptr := t.ptr - 1 } := rfl

/-- Step equation for `+`. -/
theorem simpleStep_43 (t : SimpleSt) : simpleStep 43 t =
    { t with tape := t.tape.set t.ptr ((t.tape.getD t.ptr 0 + 1) % 256) } := rfl

/-- Step equation for `-`. -/
theorem simpleStep_45 (t : SimpleSt) : simpleStep 45 t =
    { t with tape := t.tape.set t.ptr ((t.tape.getD t.ptr 0 + 255) % 256) } := rfl

/-- Step equation for `.`. -/
theorem simpleStep_46 (t : SimpleSt) : simpleStep 46 t =
    { t with out := t.out ++ [t.tape.getD t.ptr 0] } := rfl

/-- Step equation for `,`. -/
theorem simpleStep_44 (t : SimpleSt) : simpleStep 44 t =
    match t.inBuf with
    | [] => { t with tape := t.tape.set t.ptr 0 }
    | b :: rest => { t with tape := t.tape.set t.ptr b, inBuf := rest } := rfl

/-- Characters other than the six simple commands change nothing. -/
theorem simpleStep_other (c : Nat) (t : SimpleSt) (h62 : c ≠ 62) (h60 : c ≠ 60)
    (h43 : c ≠ 43) (h45 : c ≠ 45) (h46 : c ≠ 46) (h44 : c ≠ 44) : simpleStep c t = t := by
  unfold simpleStep
  simp [h62, h60, h43, h45, h46, h44]

/-- Cell and input-buffer bounds are preserved by one simple step. -/
theorem simpleStep_cells (c : Nat) (t : SimpleSt) (ht : ∀ v ∈ t.tape, v < 256)
    (hi : ∀ v ∈ t.inBuf, v < 256) :
    (∀ v ∈ (simpleStep c t).tape, v < 256) ∧ (∀ v ∈ (simpleStep c t).inBuf, v < 256) := by
  by_cases h62 : c = 62
  · subst h62
    refine ⟨fun v hv => ?_, hi⟩
    simp only [simpleStep_62] at hv
    split at hv
    · rcases List.mem_append.mp hv with h | h
      · exact ht v h
      · simp at h; omega
    · exact ht v hv
  by_cases h60 : c = 60
  · subst h60
    constructor
    · intro v hv
      simp only [simpleStep_60] at hv
      split at hv
      · rcases List.mem_cons.mp hv with h | h
        · omega
        · exact ht v h
      · exact ht v hv
    · intro v hv
      simp only [simpleStep_60] at hv
      split at hv <;> exact hi v hv
  by_cases h43 : c = 43
  · subst h43
    refine ⟨fun v hv => ?_, hi⟩
    rw [simpleStep_43] at hv
    rcases mem_set_cases _ _ _ _ hv with h | h
    · exact ht v h
    · omega
  by_cases h45 : c = 45
  · subst h45
    refine ⟨fun v hv => ?_, hi⟩
    rw [simpleStep_45] at hv
    rcases mem_set_cases _ _ _ _ hv with h | h
    · exact ht v h
    · omega
  by_cases h46 : c = 46
  · subst h46
    exact ⟨ht, hi⟩
  by_cases h44 : c = 44
  · subst h44
    constructor
    · intro v hv
      rw [simpleStep_44] at hv
      cases hbuf : t.inBuf with
      | nil =>
        rw [hbuf] at hv
        simp only [] at hv
        rcases mem_set_cases _ _ _ _ hv with h | h
        · exact ht v h
        · omega
      | cons b rest =>
        rw [hbuf] at hv
        simp only [] at hv
        rcases mem_set_cases _ _ _ _ hv with h | h
        · exact ht v h
        · subst h; exact hi _ (by rw [hbuf]; exact List.mem_cons_self _ _)
    · intro v hv
      rw [simpleStep_44] at hv
      cases hbuf : t.inBuf with
      | nil =>
        rw [hbuf] at hv
        simp only [] at hv
        exact hi v (by rw [hbuf]; exact hv)
      | cons b rest =>
        rw [hbuf] at hv
        simp only [] at hv
        exact hi v (by rw [hbuf]; exact List.mem_cons_of_mem _ hv)
  rw [simpleStep_other c t h62 h60 h43 h45 h46 h44]
  exact ⟨ht, hi⟩

/-- Pointer validity is preserved by one simple step. -/
theorem simpleStep_ptr (c : Nat) (t : SimpleSt) (h : t.ptr < t.tape.length) :
    (simpleStep c t).ptr < (simpleStep c t).tape.length := by
  by_cases h62 : c = 62
  · subst h62
    rw [simpleStep_62]
    show t.ptr + 1 < (if t.ptr + 1 = t.tape.length then t.tape ++ [0] else t.tape).length
    split
    next hc => simp only [List.length_append, List.length_cons, List.length_nil]; omega
    next hc => omega
  by_cases h60 : c = 60
  · subst h60
    rw [simpleStep_60]
    split
    next hc =>
      show t.ptr < (0 :: t.tape).length
      simp only [List.length_cons]
      omega
    next hc =>
      show t.ptr - 1 < t.tape.length
      omega
  by_cases h43 : c = 43
  · subst h43
    rw [simpleStep_43]
    show t.ptr < (t.tape.set t.ptr _).length
    rw [List.length_set]
    exact h
  by_cases h45 : c = 45
  · subst h45
    rw [simpleStep_45]
    show t.ptr < (t.tape.set t.ptr _).length
    rw [List.length_set]
    exact h
  by_cases h46 : c = 46
  · subst h46
    exact h
  by_cases h44 : c = 44
  · subst h44
    rw [simpleStep_44]
    cases hbuf : t.inBuf with
    | nil =>
      show t.ptr < (t.tape.set t.ptr 0).length
      rw [List.length_set]
      exact h
    | cons b rest =>
      show t.ptr < (t.tape.set t.ptr b).length
      rw [List.length_set]
      exact h
  rw [simpleStep_other c t h62 h60 h43 h45 h46 h44]
  exact h

/-- Cell and input-buffer bounds are preserved by one loop iteration. -/
theorem bfStep_cells (filt : List Nat) (jumps : List (Nat × Nat)) (s : BFState)
    (ht : ∀ v ∈ s.tape, v < 256) (hi : ∀ v ∈ s.inBuf, v < 256) :
    (∀ v ∈ (bfStep filt jumps s).tape, v < 256) ∧
    (∀ v ∈ (bfStep filt jumps s).inBuf, v < 256) := by
  unfold bfStep
  split
  · exact ⟨ht, hi⟩
  · split_ifs <;> first
      | exact ⟨ht, hi⟩
      | exact simpleStep_cells _ (toSimple s) ht hi

/-- Pointer validity is preserved by one loop iteration. -/
theorem bfStep_ptr (filt : List Nat) (jumps : List (Nat × Nat)) (s : BFState)
    (h : s.ptr < s.tape.length) :
    (bfStep filt jumps s).ptr < (bfStep filt jumps s).tape.length := by
  unfold bfStep
  split
  · exact h
  · split_ifs <;> first
      | exact h
      | exact simpleStep_ptr _ (toSimple s) h

/-- Cell bounds hold at every reachable state. -/
theorem bfIter_cells (filt : List Nat) (jumps : List (Nat × Nat)) : ∀ (n : Nat) (s : BFState),
    (∀ v ∈ s.tape, v < 256) → (∀ v ∈ s.inBuf, v < 256) →
    ∀ v ∈ (bfIter filt jumps n s).tape, v < 256 := by
  intro n
  induction n with
  | zero => intro s ht _; exact ht
  | succ n ih =>
    intro s ht hi
    have h2 := bfStep_cells filt jumps s ht hi
    exact ih (bfStep filt jumps s) h2.1 h2.2

/-- Pointer validity holds at every reachable state. -/
theorem bfIter_ptr (filt : List Nat) (jumps : List (Nat × Nat)) : ∀ (n : Nat) (s : BFState),
    s.ptr < s.tape.length →
    (bfIter filt jumps n s).ptr < (bfIter filt jumps n s).tape.length := by
  intro n
  induction n with
  | zero => intro s h; exact h
  | succ n ih =>
    intro s h
    exact ih (bfStep filt jumps s) (bfStep_ptr filt jumps s h)

/-! ### Claim theorems -/

/-- C1: for every text whose code points all lie in 0-255, encoding it to a
Brainfuck program and transcoding to hex, then hex-decoding and running the
program with empty input (with enough fuel), reproduces the text exactly. -/
theorem c1_encode_decode_roundtrip (T : List Nat) (hT : ∀ c ∈ T, c < 256) :
    ∃ hx fuel, encode_to_hex T = some hx ∧
      decode_from_hex fuel hx = some (.ok (some T)) := by
  have hchars : ∀ c ∈ text_to_brainfuck T, c < 128 := by
    intro c hc
    rcases aux_chars T 0 c hc with h | h | h <;> omega
  have hall : ((text_to_brainfuck T).all fun c => decide (c < 128)) = true :=
    List.all_eq_true.mpr (fun c hc => decide_eq_true (hchars c hc))
  have henc : encode_to_hex T = some (hexBytes (text_to_brainfuck T)) := by
    rw [encode_to_hex, brainfuck_to_hex, if_pos hall]
  refine ⟨hexBytes (text_to_brainfuck T), (text_to_brainfuck T).length, henc, ?_⟩
  have hhex : hex_to_brainfuck (hexBytes (text_to_brainfuck T))
      = some (text_to_brainfuck T) := by
    rw [hex_to_brainfuck, fromhex_hexBytes _ hchars]
    simp [hall]
  rw [decode_from_hex, hhex]
  simp only [Option.map_some']
  rw [run_text_to_brainfuck T hT]

/-- Witness for C1 at the concrete text "Hi". -/
theorem c1_encode_decode_roundtrip_witness :
    ∃ hx fuel, encode_to_hex [72, 105] = some hx ∧
      decode_from_hex fuel hx = some (.ok (some [72, 105])) :=
  c1_encode_decode_roundtrip [72, 105] (by decide)

/-- C2 counterexample: "80" is an even-length string of hex digits denoting
the single byte 128, yet from_hex fails on it (its ASCII decode raises), so
to_hex(from_hex("80")) is undefined rather than "80". -/
theorem c2_counterexample :
    ([56, 48] : List Nat).length % 2 = 0 ∧
    (∀ c ∈ ([56, 48] : List Nat), isHexDigit c = true) ∧
    hex_to_brainfuck [56, 48] = none :=
  ⟨rfl, by decide, rfl⟩

/-- C2 amended: from_hex(to_hex(p)) = p whenever to_hex(p) is defined (that
is, for ASCII program sources, which include every generated program), and
to_hex(from_hex(h)) = h.lower() for every even-length hex-digit string h
whose digit pairs all denote byte values 0-127; pairs denoting 128-255
instead make from_hex raise in its ASCII decode. -/
theorem c2_transcoder_roundtrip :
    (∀ p hx, brainfuck_to_hex p = some hx → hex_to_brainfuck hx = some p) ∧
    (∀ h, (∀ c ∈ h, isHexDigit c = true) → h.length % 2 = 0 → hexPairsAscii h = true →
      (hex_to_brainfuck h).bind brainfuck_to_hex = some (h.map lowerAscii)) := by
  constructor
  · intro p hx hp
    rw [brainfuck_to_hex] at hp
    by_cases hall : (p.all fun c => decide (c < 128)) = true
    · rw [if_pos hall] at hp
      injection hp with hpx
      subst hpx
      have hchars : ∀ b ∈ p, b < 128 := by
        intro b hb
        have := List.all_eq_true.mp hall b hb
        simpa using this
      rw [hex_to_brainfuck, fromhex_hexBytes p hchars]
      simp [hall]
    · rw [if_neg hall] at hp
      cases hp
  · intro h hhex heven hpairs
    have hsome : ∀ c ∈ h, (hexVal c).isSome = true := fun c hc => by
      have := hhex c hc
      rwa [isHexDigit] at this
    obtain ⟨bs, hbs, hhexb, hlt⟩ := fromhex_pairs h hsome heven
    have hall : (bs.all fun c => decide (c < 128)) = true :=
      List.all_eq_true.mpr (fun x hx => decide_eq_true (hlt hpairs x hx))
    simp [hex_to_brainfuck, brainfuck_to_hex, hbs, hall, hhexb]
    exact fun x hx => hlt hpairs x hx

/-- Witness for C2: "2b" decodes to "+" and back; "41" round-trips through
from_hex then to_hex unchanged. -/
theorem c2_transcoder_roundtrip_witness :
    hex_to_brainfuck [50, 98] = some [43] ∧
    (hex_to_brainfuck [52, 49]).bind brainfuck_to_hex = some [52, 49] :=
  ⟨c2_transcoder_roundtrip.1 [43] [50, 98] rfl,
   c2_transcoder_roundtrip.2 [52, 49] (by decide) (by decide) (by decide)⟩

/-- C3 counterexample: "ff" has even length and consists only of hex digits,
yet hex decoding fails on it (byte 255 is not ASCII-decodable), refuting
"fails if and only if odd length or a non-hex character". -/
theorem c3_counterexample :
    ([102, 102] : List Nat).length % 2 = 0 ∧
    (∀ c ∈ ([102, 102] : List Nat), isHexDigit c = true) ∧
    hex_to_brainfuck [102, 102] = none :=
  ⟨rfl, by decide, rfl⟩

/-- C3 amended: hex decoding fails on an odd number of hex digits, on any
character that is neither a hex digit nor ASCII whitespace, and whenever a
decoded byte is ≥ 128; on even-length hex-digit strings whose pairs all
denote bytes 0-127 it succeeds, case-insensitively reconstructing the byte
sequence whose lowercase hex spelling is the lowercased input. -/
theorem c3_hex_decode_errors :
    (∀ h, (∀ c ∈ h, isHexDigit c = true) → h.length % 2 = 1 →
      hex_to_brainfuck h = none) ∧
    (∀ h c, c ∈ h → isHexDigit c = false → isPySpace c = false →
      hex_to_brainfuck h = none) ∧
    (∀ h bs b, fromhex h = some bs → b ∈ bs → 128 ≤ b → hex_to_brainfuck h = none) ∧
    (∀ h, (∀ c ∈ h, isHexDigit c = true) → h.length % 2 = 0 → hexPairsAscii h = true →
      ∃ bs, hex_to_brainfuck h = some bs ∧ hexBytes bs = h.map lowerAscii) := by
  refine ⟨?_, ?_, ?_, ?_⟩
  · intro h hhex hodd
    have hsome : ∀ c ∈ h, (hexVal c).isSome = true := fun c hc => by
      have := hhex c hc
      rwa [isHexDigit] at this
    rw [hex_to_brainfuck, fromhex_oddhex h hsome hodd]
  · intro h c hc hval hsp
    have hvn : hexVal c = none := by
      cases hx : hexVal c with
      | none => rfl
      | some v => rw [isHexDigit, hx] at hval; simp at hval
    rw [hex_to_brainfuck, fromhex_badchar h ⟨c, hc, hvn, hsp⟩]
  · intro h bs b hbs hb h128
    have hnot : ¬ ((bs.all fun c => decide (c < 128)) = true) := by
      intro hall
      have := List.all_eq_true.mp hall b hb
      simp at this
      omega
    rw [hex_to_brainfuck, hbs]
    simp [hnot]
  · intro h hhex heven hpairs
    have hsome : ∀ c ∈ h, (hexVal c).isSome = true := fun c hc => by
      have := hhex c hc
      rwa [isHexDigit] at this
    obtain ⟨bs, hbs, hhexb, hlt⟩ := fromhex_pairs h hsome heven
    have hall : (bs.all fun c => decide (c < 128)) = true :=
      List.all_eq_true.mpr (fun x hx => decide_eq_true (hlt hpairs x hx))
    exact ⟨bs, by rw [hex_to_brainfuck, hbs]; simp [hall], hhexb⟩

/-- Witness for C3: the spec's own test inputs: "abc" (odd length) and "zz"
(non-hex characters) both fail. -/
theorem c3_hex_decode_errors_witness :
    hex_to_brainfuck [97, 98, 99] = none ∧ hex_to_brainfuck [122, 122] = none :=
  ⟨c3_hex_decode_errors.1 [97, 98, 99] (by decide) rfl,
   c3_hex_decode_errors.2.1 [122, 122] 122 (by decide) (by decide) (by decide)⟩

/-- C4 counterexample: on the program "[[", the code reports the unmatched
open bracket at position 1, not at position 0 as "earliest" would demand. -/
theorem c4_counterexample :
    run_brainfuck 10 [91, 91] [] = .error (.unmatchedOpen 1) ∧
    run_brainfuck 10 [91, 91] [] ≠ .error (.unmatchedOpen 0) := by
  refine ⟨rfl, fun h => ?_⟩
  have h1 : (Except.error (BFError.unmatchedOpen 1) :
      Except BFError (Option (List Nat))) = .error (.unmatchedOpen 0) := h
  injection h1 with h2
  injection h2 with h3
  simp at h3

/-- C4 amended: for every program whose scan finishes with pending unmatched
open brackets, run fails with UnmatchedOpenBracket reporting the latest
(most recently opened) pending unmatched open bracket of the filtered
sequence: the reported position heads the pending-opens stack, is the
position of a `[`, and strictly exceeds every other pending open position.
In particular n ≥ 1 consecutive opens report position n-1, "[][[" reports 3,
"[[+" reports 1 (not the earliest 0, nor the last index 2), and "[[]"
reports 0 (not the last index 2). -/
theorem c4_unmatched_open_latest :
    (∀ code p rest, pendingOpens (code.filter isBF) 0 [] = some (p :: rest) →
      (∀ fuel inp, run_brainfuck fuel code inp = .error (.unmatchedOpen p)) ∧
      (code.filter isBF)[p]? = some 91 ∧
      (∀ q ∈ rest, (code.filter isBF)[q]? = some 91 ∧ q < p)) ∧
    (∀ fuel inp n, 1 ≤ n →
      run_brainfuck fuel (List.replicate n 91) inp = .error (.unmatchedOpen (n - 1))) ∧
    (∀ fuel inp, run_brainfuck fuel [91, 93, 91, 91] inp = .error (.unmatchedOpen 3)) ∧
    (∀ fuel inp, run_brainfuck fuel [91, 91, 43] inp = .error (.unmatchedOpen 1)) ∧
    (∀ fuel inp, run_brainfuck fuel [91, 91, 93] inp = .error (.unmatchedOpen 0)) := by
  refine ⟨?_, ?_, ?_, ?_, ?_⟩
  · intro code p rest hpend
    have hprops := pendingOpens_props (code.filter isBF) 0 [] (p :: rest)
      (code.filter isBF) hpend (fun k => by simp)
      (fun q hq => absurd hq (List.not_mem_nil q))
      (fun q hq => absurd hq (List.not_mem_nil q)) List.Pairwise.nil
    refine ⟨?_, ?_, ?_⟩
    · intro fuel inp
      exact run_brainfuck_scan_error fuel code inp _
        (scanAux_pendingOpens (code.filter isBF) 0 [] [] p rest hpend)
    · exact hprops.1 p (List.mem_cons_self p rest)
    · intro q hq
      exact ⟨hprops.1 q (List.mem_cons_of_mem _ hq),
        (List.pairwise_cons.mp hprops.2).1 q hq⟩
  · intro fuel inp n hn
    apply run_brainfuck_scan_error
    have hfilt : (List.replicate n 91).filter isBF = List.replicate n 91 :=
      List.filter_eq_self.mpr (fun a ha => by rw [(List.mem_replicate.mp ha).2]; rfl)
    rw [hfilt, scanBrackets, scanAux_replicate_open n 0 [] [] hn]
    simp
  · intro fuel inp
    exact run_brainfuck_scan_error fuel _ inp _ rfl
  · intro fuel inp
    exact run_brainfuck_scan_error fuel _ inp _ rfl
  · intro fuel inp
    exact run_brainfuck_scan_error fuel _ inp _ rfl

/-- Witness for C4: "[[+" has pending opens [1, 0] and fails at the latest
one, position 1; "[[" likewise fails at 1. -/
theorem c4_unmatched_open_latest_witness :
    run_brainfuck 5 [91, 91, 43] [] = .error (.unmatchedOpen 1) ∧
    run_brainfuck 7 (List.replicate 2 91) [] = .error (.unmatchedOpen 1) :=
  ⟨(c4_unmatched_open_latest.1 [91, 91, 43] 1 [0] rfl).1 5 [],
   c4_unmatched_open_latest.2.1 7 [] 2 (by decide)⟩

/-- C5: bracket-structure errors precede all execution: "]" fails with
unmatched-close at position 0 and "[" with unmatched-open at position 0,
for every fuel and input; "[]" succeeds with empty output; and any failing
run already fails identically with zero fuel, i.e. without any execution
step or partial output. -/
theorem c5_validation_before_execution :
    (∀ fuel inp, run_brainfuck fuel [93] inp = .error (.unmatchedClose 0)) ∧
    (∀ fuel inp, run_brainfuck fuel [91] inp = .error (.unmatchedOpen 0)) ∧
    run_brainfuck 10 [91, 93] [] = .ok (some []) ∧
    (∀ fuel code inp e, run_brainfuck fuel code inp = .error e →
      run_brainfuck 0 code inp = .error e) := by
  refine ⟨?_, ?_, rfl, ?_⟩
  · intro fuel inp
    exact run_brainfuck_scan_error fuel [93] inp _ rfl
  · intro fuel inp
    exact run_brainfuck_scan_error fuel [91] inp _ rfl
  · intro fuel code inp e h
    cases hscan : scanBrackets (code.filter isBF) with
    | error e2 =>
      rw [run_brainfuck_scan_error fuel code inp e2 hscan] at h
      rw [run_brainfuck_scan_error 0 code inp e2 hscan]
      exact h
    | ok jumps =>
      cases henc : encodeLatin1 inp with
      | none =>
        rw [run_brainfuck_enc_error fuel code inp jumps hscan henc] at h
        rw [run_brainfuck_enc_error 0 code inp jumps hscan henc]
        exact h
      | some buf =>
        rw [run_brainfuck_ok fuel code inp jumps hscan buf henc] at h
        cases h

/-- Witness for C5: the "]" failure is already produced with zero fuel. -/
theorem c5_validation_before_execution_witness :
    run_brainfuck 0 [93] [] = .error (.unmatchedClose 0) :=
  c5_validation_before_execution.2.2.2 5 [93] [] (.unmatchedClose 0)
    (c5_validation_before_execution.1 5 [])

/-- C6: starting from any latin1-encodable input, every tape cell lies in
[0,255] after every number of execution steps, and the program "-." outputs
the single byte 255 (0 wraps to 255). -/
theorem c6_cells_bounded :
    (∀ filt jumps buf, (∀ v ∈ buf, v < 256) → ∀ n,
      ∀ v ∈ (bfIter filt jumps n (initState buf)).tape, v < 256) ∧
    run_brainfuck 10 [45, 46] [] = .ok (some [255]) := by
  constructor
  · intro filt jumps buf hbuf n
    exact bfIter_cells filt jumps n (initState buf)
      (by intro v hv; simp [initState] at hv; omega) hbuf
  · rfl

/-- Witness for C6 after one step of "+" on empty input. -/
theorem c6_cells_bounded_witness :
    ∀ v ∈ (bfIter [43] [] 1 (initState [])).tape, v < 256 :=
  c6_cells_bounded.1 [43] [] [] (by decide) 1

/-- C7: executing pointer-decrement with the pointer at 0 inserts a fresh
zero cell at the front of the tape and leaves the pointer at 0, and the
program "<+." outputs byte value 1. -/
theorem c7_left_growth :
    (∀ filt jumps (s : BFState), filt[s.pc]? = some 60 → s.ptr = 0 →
      bfStep filt jumps s = ⟨0 :: s.tape, 0, s.pc + 1, s.inBuf, s.out⟩) ∧
    run_brainfuck 10 [60, 43, 46] [] = .ok (some [1]) := by
  constructor
  · intro filt jumps s hg hp
    rw [bfStep, hg]
    simp [simpleStep, withPC, toSimple, hp]
  · rfl

/-- Witness for C7: one "<" step from the initial state. -/
theorem c7_left_growth_witness :
    bfStep [60] [] (initState []) = ⟨[0, 0], 0, 1, [], []⟩ :=
  c7_left_growth.1 [60] [] (initState []) rfl rfl

/-- C8: the pointer is always a valid tape index: at every step of every
execution started from the initial state, pointer < tape length, so no tape
access is out of bounds. -/
theorem c8_pointer_in_bounds (filt : List Nat) (jumps : List (Nat × Nat))
    (buf : List Nat) (n : Nat) :
    (bfIter filt jumps n (initState buf)).ptr
      < (bfIter filt jumps n (initState buf)).tape.length :=
  bfIter_ptr filt jumps n (initState buf) (by simp [initState])

/-- C9: non-instruction characters have no effect: running any raw source
equals running its restriction to the eight command characters, for every
fuel and input — outputs and error positions alike are computed over the
filtered sequence. -/
theorem c9_filter_invariance (fuel : Nat) (code inp : List Nat) :
    run_brainfuck fuel code inp = run_brainfuck fuel (code.filter isBF) inp := by
  have hff : (code.filter isBF).filter isBF = code.filter isBF :=
    List.filter_eq_self.mpr (fun a ha => List.of_mem_filter ha)
  rw [run_brainfuck, run_brainfuck, hff]

/-- C10: latin1-encodable input is consumed front-to-back byte by byte, `,`
yields 0 once the buffer is exhausted, and an input code point above 255
raises the encoding error for any fuel whenever bracket validation passes —
hence before any instruction executes; ",." echoes "A" and outputs a null
byte on empty input. -/
theorem c10_input_model :
    (∀ inp, (∀ c ∈ inp, c < 256) → encodeLatin1 inp = some inp) ∧
    (∀ filt jumps (s : BFState) b rest, filt[s.pc]? = some 44 → s.inBuf = b :: rest →
      bfStep filt jumps s = ⟨s.tape.set s.ptr b, s.ptr, s.pc + 1, rest, s.out⟩) ∧
    (∀ filt jumps (s : BFState), filt[s.pc]? = some 44 → s.inBuf = [] →
      bfStep filt jumps s = ⟨s.tape.set s.ptr 0, s.ptr, s.pc + 1, [], s.out⟩) ∧
    (∀ fuel code inp jumps, scanBrackets (code.filter isBF) = .ok jumps →
      (∃ c ∈ inp, 256 ≤ c) → run_brainfuck fuel code inp = .error .inputEncodeError) ∧
    run_brainfuck 10 [44, 46] [65] = .ok (some [65]) ∧
    run_brainfuck 10 [44, 46] [] = .ok (some [0]) := by
  refine ⟨?_, ?_, ?_, ?_, rfl, rfl⟩
  · intro inp h
    rw [encodeLatin1, if_pos (List.all_eq_true.mpr (fun c hc => decide_eq_true (h c hc)))]
  · intro filt jumps s b rest hg hb
    rw [bfStep, hg]
    simp [simpleStep, withPC, toSimple, hb]
  · intro filt jumps s hg hb
    rw [bfStep, hg]
    simp [simpleStep, withPC, toSimple, hb]
  · intro fuel code inp jumps hscan hbad
    obtain ⟨c, hc, h256⟩ := hbad
    apply run_brainfuck_enc_error fuel code inp jumps hscan
    have hnot : ¬ ((inp.all fun c => decide (c < 256)) = true) := by
      intro hall
      have := List.all_eq_true.mp hall c hc
      simp at this
      omega
    rw [encodeLatin1, if_neg hnot]

/-- Witness for C10: "A" encodes to itself, and an input containing code
point 300 makes a bracket-valid program fail with the encoding error. -/
theorem c10_input_model_witness :
    encodeLatin1 [65] = some [65] ∧
    run_brainfuck 3 [44] [300] = .error .inputEncodeError :=
  ⟨c10_input_model.1 [65] (by decide),
   c10_input_model.2.2.2.1 3 [44] [300] [] rfl (by decide)⟩
